import Mathlib

set_option maxRecDepth 100000

/-!
Verification development for the `fondos` ledger program (src/main.rs).

The program ingests pasted bank-report text, merges balances, actions and
fund values into a per-fund time-series store, and computes action-adjusted
variation figures.  This file gives a shallow embedding of the parsing,
merge and return-computation logic and proves/refutes the specified
properties.

Modelling conventions:
* `chrono::NaiveDate` values are modelled as integers (dates form a totally
  ordered set and the code only compares/stores them; date-string parsing by
  chrono is treated as pre-validated input).
* `i64` money amounts are modelled as `Int`; the `as i64` cast saturates.
* `f64` values are modelled exactly: every finite binary64 number is a
  rational, and every operation the code performs (correctly rounded parse,
  `*`, `/`, `-`, `+`, comparison) is round-to-nearest-even over rationals.
  No NaN/∞ arises on any modelled path (divisors are nonzero, magnitudes
  stay far below the overflow threshold).
* Rationals are represented unnormalized (`Q` below) so that all arithmetic
  kernel-reduces; the denominator is kept positive by construction.
-/

namespace Fondos

/-- Unnormalized rational numbers with positive denominator by construction;
models exact values of Rust `f64` computations. -/
structure Q where
  num : Int
  den : Int
deriving DecidableEq, Repr

def qofInt (z : Int) : Q := ⟨z, 1⟩

def q0 : Q := ⟨0, 1⟩

def qadd (a b : Q) : Q := ⟨a.num * b.den + b.num * a.den, a.den * b.den⟩

def qsub (a b : Q) : Q := ⟨a.num * b.den - b.num * a.den, a.den * b.den⟩

def qmul (a b : Q) : Q := ⟨a.num * b.num, a.den * b.den⟩

def qneg (a : Q) : Q := ⟨-a.num, a.den⟩

def qabs (a : Q) : Q := ⟨if a.num < 0 then -a.num else a.num, a.den⟩

/-- Exact division; the divisor is nonzero on all modelled code paths. -/
def qdiv (a b : Q) : Q :=
  if b.num < 0 then ⟨-(a.num * b.den), a.den * -b.num⟩
  else ⟨a.num * b.den, a.den * b.num⟩

/-- Semantic equality of unnormalized rationals. -/
def qeq (a b : Q) : Prop := a.num * b.den = b.num * a.den

def qlt (a b : Q) : Prop := a.num * b.den < b.num * a.den

def qle (a b : Q) : Prop := a.num * b.den ≤ b.num * a.den

instance (a b : Q) : Decidable (qeq a b) := by
  unfold qeq
  infer_instance

instance (a b : Q) : Decidable (qlt a b) := by
  unfold qlt
  infer_instance

instance (a b : Q) : Decidable (qle a b) := by
  unfold qle
  infer_instance

def qeqB (a b : Q) : Bool := decide (a.num * b.den = b.num * a.den)

def qltB (a b : Q) : Bool := decide (a.num * b.den < b.num * a.den)

def qfloor (a : Q) : Int := a.num.fdiv a.den

/-- Truncation toward zero, as Rust `as i64` does before saturating. -/
def qtrunc (a : Q) : Int :=
  if a.num < 0 then -((-a.num).fdiv a.den) else a.num.fdiv a.den

/-- Rust `as i64` cast of an `f64`: truncate toward zero, saturating. -/
def i64cast (a : Q) : Int :=
  max (-(2 ^ 63)) (min (2 ^ 63 - 1) (qtrunc a))

/-- Fuel-based binary logarithm so that the kernel can evaluate it. -/
def log2Aux : Nat → Nat → Nat
  | 0, _ => 0
  | fuel + 1, n => if n < 2 then 0 else log2Aux fuel (n / 2) + 1

/-- `log2N n = ⌊log₂ n⌋` for `n ≥ 1` (and `0` at `0`). -/
def log2N (n : Nat) : Nat := log2Aux n n

/-- `⌊log₂ q⌋` for a positive rational `q`. -/
def qlog2 (q : Q) : Int :=
  let a := q.num.toNat
  let b := q.den.toNat
  if b ≤ a then (log2N (a / b) : Int)
  else
    let L := log2N (b / a)
    if b = a * 2 ^ L then -(L : Int) else -(L : Int) - 1

/-- Round a rational to the nearest integer, ties to even. -/
def rne (a : Q) : Int :=
  let f := qfloor a
  let r := qsub a (qofInt f)
  if qltB r ⟨1, 2⟩ then f
  else if qltB ⟨1, 2⟩ r then f + 1
  else if f % 2 = 0 then f else f + 1

def qpow2 (k : Int) : Q :=
  if 0 ≤ k then ⟨2 ^ k.toNat, 1⟩ else ⟨1, 2 ^ (-k).toNat⟩

/-- Round an exact rational to the nearest IEEE binary64 value
(round-to-nearest, ties to even; subnormals via the fixed minimum exponent).
Overflow does not occur on the modelled paths. -/
def f64near (q : Q) : Q :=
  if q.num = 0 then ⟨0, 1⟩
  else
    let aq := qabs q
    let e : Int := max (qlog2 aq) (-1022)
    let m : Int := rne (qmul aq (qpow2 (52 - e)))
    let v : Q := qmul ⟨m, 1⟩ (qpow2 (e - 52))
    if q.num < 0 then qneg v else v

def f64add (a b : Q) : Q := f64near (qadd a b)

def f64sub (a b : Q) : Q := f64near (qsub a b)

def f64mul (a b : Q) : Q := f64near (qmul a b)

def f64div (a b : Q) : Q := f64near (qdiv a b)

/-- Rust `as f64` conversion of an `i64`. -/
def f64ofInt (z : Int) : Q := f64near (qofInt z)

/-! ### Rust `f64::from_str`

Rust's float parsing is correctly rounded, so it is modelled as the exact
decimal value of the literal followed by `f64near`.  The grammar is
`Sign? Digits '.'? Digits? Exp? | Sign? '.' Digits Exp?` with
`Exp ::= ('e'|'E') Sign? Digits`; the special literals `inf`/`infinity`/
`NaN` are not modelled (no numeric report field can produce them). -/

def isDigitC (c : Char) : Bool := '0' ≤ c && c ≤ '9'

def digitsToNat (ds : List Char) : Nat :=
  ds.foldl (fun acc c => acc * 10 + (c.toNat - 48)) 0

def parseExp (cs : List Char) : Option Int :=
  match cs with
  | [] => some 0
  | 'e' :: r =>
    let p : Int × List Char :=
      match r with
      | '+' :: t => (1, t)
      | '-' :: t => (-1, t)
      | _ => (1, r)
    let ds := p.2.takeWhile isDigitC
    let rest := p.2.dropWhile isDigitC
    if ds.isEmpty || !rest.isEmpty then none
    else some (p.1 * (digitsToNat ds : Int))
  | 'E' :: r =>
    let p : Int × List Char :=
      match r with
      | '+' :: t => (1, t)
      | '-' :: t => (-1, t)
      | _ => (1, r)
    let ds := p.2.takeWhile isDigitC
    let rest := p.2.dropWhile isDigitC
    if ds.isEmpty || !rest.isEmpty then none
    else some (p.1 * (digitsToNat ds : Int))
  | _ => none

def applyExp (m : Q) (e : Int) : Q :=
  if 0 ≤ e then qmul m ⟨(10 : Int) ^ e.toNat, 1⟩
  else ⟨m.num, m.den * (10 : Int) ^ (-e).toNat⟩

/-- Exact decimal value of a Rust float literal (`none` iff Rust errs). -/
def parseDecExact (cs0 : List Char) : Option Q :=
  let sp : Bool × List Char :=
    match cs0 with
    | '+' :: t => (false, t)
    | '-' :: t => (true, t)
    | _ => (false, cs0)
  let ds := sp.2.takeWhile isDigitC
  let r1 := sp.2.dropWhile isDigitC
  let core : Option Q :=
    match r1 with
    | '.' :: r2 =>
      let fs := r2.takeWhile isDigitC
      let r3 := r2.dropWhile isDigitC
      if ds.isEmpty && fs.isEmpty then none
      else
        (parseExp r3).map fun e =>
          applyExp
            ⟨(digitsToNat ds : Int) * (10 : Int) ^ fs.length + (digitsToNat fs : Int),
              (10 : Int) ^ fs.length⟩ e
    | _ =>
      if ds.isEmpty then none
      else (parseExp r1).map fun e => applyExp ⟨(digitsToNat ds : Int), 1⟩ e
  core.map fun q => if sp.1 then qneg q else q

/-- `str::parse::<f64>()`: correctly rounded decimal-to-binary64. -/
def parseF64 (s : String) : Option Q := (parseDecExact s.data).map f64near

/-- Rust `str::replace(&[c, ...][..], "")`: remove the given characters. -/
def stripChars (bad : List Char) (s : String) : String :=
  ⟨s.data.filter fun c => !(bad.contains c)⟩

/-- The money pipeline of `main.rs` (balance lines 228-234, fund/unit value
lines 582-600): delete `$`, `,` and spaces, parse as `f64`, multiply by
`100.0`, cast `as i64`. -/
def parseMoney (raw : String) : Option Int :=
  (parseF64 (stripChars ['$', ',', ' '] raw)).map fun f =>
    i64cast (f64mul f (qofInt 100))

/-- The movement-change pipeline (lines 390-410): delete `$`, `,` and the
newline, parse as `f64`, apply the sign given by the action label, multiply
by `100.0`, cast `as i64`.  `none` covers both a float-parse failure and an
unrecognized action label (error codes G9tv9Suj and KevkgKt9). -/
def parseChange (action_str : String) (change_raw : String) : Option Int :=
  match parseF64 (stripChars ['$', ',', '\n'] change_raw) with
  | none => none
  | some change_abs =>
    if action_str = "Aporte" ∨ action_str = "Aporte por traslado de otro portafolio" then
      some (i64cast (f64mul change_abs (qofInt 100)))
    else if action_str = "Aporte por traslado a otro portafolio" ∨ action_str = "Retiro parcial" then
      some (i64cast (f64mul (qneg change_abs) (qofInt 100)))
    else none

/-! ### List helpers

Small structurally recursive helpers mirroring the iterator patterns of the
source (`position`, `find`, in-place mutation of the first match, indexing);
kept local so that all equations are simp-friendly and kernel-evaluable. -/

/-- `Iterator::position`. -/
def position (p : α → Bool) : List α → Option Nat
  | [] => none
  | x :: xs => if p x then some 0 else (position p xs).map (· + 1)

/-- `Iterator::find` (first element satisfying the predicate). -/
def findR (p : α → Bool) : List α → Option α
  | [] => none
  | x :: xs => if p x then some x else findR p xs

/-- Mutate the first element satisfying `p` (the `iter_mut().find` pattern). -/
def updateFirst (p : α → Bool) (f : α → α) : List α → List α
  | [] => []
  | x :: xs => if p x then f x :: xs else x :: updateFirst p f xs

/-- Vector indexing with a default (indices are in range on all code paths). -/
def nthD (l : List α) (n : Nat) (d : α) : α :=
  match l, n with
  | [], _ => d
  | x :: _, 0 => x
  | _ :: xs, n + 1 => nthD xs n d

/-- Replace the element at an index (identity when out of range). -/
def setNth : List α → Nat → α → List α
  | [], _, _ => []
  | _ :: xs, 0, y => y :: xs
  | x :: xs, n + 1, y => x :: setNth xs n y

/-- `iter().filter(p).count()`. -/
def countB (p : α → Bool) : List α → Nat
  | [] => 0
  | x :: xs => (if p x then 1 else 0) + countB p xs

/-- `Iterator::skip_while` (drop the longest prefix satisfying `p`). -/
def skipWhile (p : α → Bool) : List α → List α
  | [] => []
  | x :: xs => if p x then skipWhile p xs else x :: xs

/-- `str::split_once(c)`: split at the first occurrence, delimiter removed. -/
def splitOnceAux (c : Char) : List Char → Option (List Char × List Char)
  | [] => none
  | x :: xs =>
    if x == c then some ([], xs)
    else (splitOnceAux c xs).map fun p => (x :: p.1, p.2)

def splitOnce (c : Char) (s : String) : Option (String × String) :=
  (splitOnceAux c s.data).map fun p => (⟨p.1⟩, ⟨p.2⟩)

/-! ### Data model (structs of `main.rs`) -/

/-- A record of the money balance in a fund (cents). -/
structure Balance where
  date : Int
  balance : Int
deriving DecidableEq, Repr

/-- A record of an action (signed cash flow, cents) in a fund. -/
structure Action where
  date : Int
  change : Int
deriving DecidableEq, Repr

/-- A record of whole-fund value and unit value (cents). -/
structure FundValue where
  date : Int
  fund_value : Int
  unit_value : Int
deriving DecidableEq, Repr

/-- One per-fund time series. -/
structure Series where
  fund : String
  balance : List Balance
  action : List Action
  fund_value : List FundValue
deriving DecidableEq, Repr

/-- A repetition of a fund action (the per-page side table). -/
structure Repetition where
  fund_index : Nat
  action_index : Nat
  repetition : Int
deriving DecidableEq, Repr

/-- A cumulative record of fund performance (funds.csv row); the eleven
return-on-equity percentages are `f64` in the source. -/
structure FundCuml where
  fund : String
  roe_next_to_last_year : Q
  roe_last_year : Q
  roe_year_to_date : Q
  roe_day : Q
  roe_day_annualized : Q
  roe_month : Q
  roe_trimester : Q
  roe_semester : Q
  roe_year : Q
  roe_2_years : Q
  roe_total : Q
deriving DecidableEq, Repr

def emptySeries : Series := ⟨"", [], [], []⟩

def defaultAction : Action := ⟨0, 0⟩

/-- Error/warning state: the accumulated messages and the fatal flag
(`errors` / `errors_produced` in the source; the full field-context chain of
each message is elided, messages are identified by their error codes). -/
structure ErrSt where
  msgs : List String
  flag : Bool
deriving DecidableEq, Repr

def noErr : ErrSt := ⟨[], false⟩

/-- `input_err(message, input, false)`: record a non-fatal warning. -/
def warnMsg (m : String) (es : ErrSt) : ErrSt := ⟨es.msgs ++ [m], es.flag⟩

/-- `input_err(message, input, true)`: record a fatal error. -/
def errMsg (m : String) (es : ErrSt) : ErrSt := ⟨es.msgs ++ [m], true⟩

/-! ### Balance ingestion pass (`Mode::Table`, lines 214-281)

Each payload row is `fund_str \t balance_raw \t ...`; the record date is the
run date (`today`). -/

/-- A tokenized balance-report payload row. -/
structure BalRow where
  fund : String
  balance_raw : String
deriving DecidableEq, Repr

def balStep (today : Int) (st : List Series × ErrSt) (row : BalRow) :
    List Series × ErrSt :=
  let t := st.1
  let es := st.2
  match parseMoney row.balance_raw with
  | none => (t, errMsg "66bVN54K: Error parsing balance_f" es)
  | some balance =>
    match findR (fun s => s.fund == row.fund) t with
    | some s =>
      match findR (fun b => b.date == today) s.balance with
      | some x =>
        let es' :=
          if x.balance ≠ balance then
            warnMsg "Warning: Fund changing balance" es
          else es
        (updateFirst (fun s => s.fund == row.fund)
          (fun s =>
            { s with
              balance :=
                updateFirst (fun b => b.date == today)
                  (fun b => { b with balance := balance }) s.balance }) t,
          es')
      | none =>
        (updateFirst (fun s => s.fund == row.fund)
          (fun s => { s with balance := s.balance ++ [⟨today, balance⟩] }) t,
          es)
    | none => (t ++ [⟨row.fund, [⟨today, balance⟩], [], []⟩], es)

def balancePass (today : Int) (t : List Series) (rows : List BalRow) :
    List Series × ErrSt :=
  rows.foldl (balStep today) (t, noErr)

/-! ### Movements ingestion (`'fund_changes` loop, lines 326-517)

A page is one batch: rows are reconciled against the store through the
per-page `repetitions` side table, which is applied after the page ends. -/

/-- A parsed movement row: (fund, date, signed change in cents). -/
structure MovRow where
  fund : String
  date : Int
  change : Int
deriving DecidableEq, Repr

/-- Find the repetition entry for `(fund_index, action_index)` and increment
it, or append a fresh entry with count 1 (lines 418-431). -/
def bumpRep : List Repetition → Nat → Nat → List Repetition
  | [], fi, ai => [⟨fi, ai, 1⟩]
  | r :: rs, fi, ai =>
    if r.fund_index == fi && r.action_index == ai then
      ⟨r.fund_index, r.action_index, r.repetition + 1⟩ :: rs
    else r :: bumpRep rs fi ai

/-- Per-row handling (lines 411-446): push a brand-new action immediately;
count a row matching a stored action in the repetition side table. -/
def movStep (st : List Series × List Repetition) (row : MovRow) :
    List Series × List Repetition :=
  let t := st.1
  let reps := st.2
  match position (fun s => s.fund == row.fund) t with
  | some fi =>
    let s := nthD t fi emptySeries
    match position (fun a => a.date == row.date && a.change == row.change) s.action with
    | some ai => (t, bumpRep reps fi ai)
    | none => (setNth t fi { s with action := s.action ++ [⟨row.date, row.change⟩] }, reps)
  | none => (t ++ [⟨row.fund, [], [⟨row.date, row.change⟩], []⟩], reps)

/-- Post-page reconciliation (lines 498-509): for each repetition entry in
order, append `repetition − stored-count` clones (none when non-positive). -/
def reconcile : List Series → List Repetition → List Series
  | t, [] => t
  | t, r :: rest =>
    reconcile
      (setNth t r.fund_index
        { nthD t r.fund_index emptySeries with
          action := (nthD t r.fund_index emptySeries).action ++
            List.replicate
              (r.repetition -
                ((countB (fun b =>
                  (nthD (nthD t r.fund_index emptySeries).action r.action_index defaultAction).date == b.date &&
                  (nthD (nthD t r.fund_index emptySeries).action r.action_index defaultAction).change == b.change)
                  (nthD t r.fund_index emptySeries).action : Nat) : Int)).toNat
              (nthD (nthD t r.fund_index emptySeries).action r.action_index defaultAction) })
      rest

/-- Ingest one movements page of already-parsed rows. -/
def ingestMov (t : List Series) (batch : List MovRow) : List Series :=
  let st := batch.foldl movStep (t, ([] : List Repetition))
  reconcile st.1 st.2

/-- Number of stored actions with signature `(d, c)` in the (first) series
of fund `f`. -/
def countSig (t : List Series) (f : String) (d c : Int) : Nat :=
  match findR (fun s => s.fund == f) t with
  | some s => countB (fun a => a.date == d && a.change == c) s.action
  | none => 0

/-- A raw movement payload row (`date \t fund \t action \t type \t change`);
the date is pre-validated, see the module comment. -/
structure MovRaw where
  date : Int
  fund : String
  action_str : String
  type_str : String
  change_raw : String
deriving DecidableEq, Repr

def movParseRaw (r : MovRaw) : Option MovRow :=
  (parseChange r.action_str r.change_raw).map fun c => ⟨r.fund, r.date, c⟩

def movPageStep (st : (List Series × List Repetition) × ErrSt) (r : MovRaw) :
    (List Series × List Repetition) × ErrSt :=
  match movParseRaw r with
  | some row => (movStep st.1 row, st.2)
  | none => (st.1, errMsg "G9tv9Suj/KevkgKt9: bad change or action" st.2)

/-- One movements page over raw rows, ending with reconciliation. -/
def movPage (t : List Series) (page : List MovRaw) : List Series × ErrSt :=
  let st := page.foldl movPageStep ((t, ([] : List Repetition)), noErr)
  (reconcile st.1.1 st.1.2, st.2)

/-- All movements pages; a page whose errors are fatal ends the run
(the `return` at lines 514-516), so later pages are not processed. -/
def movPagesRun (t : List Series) : List (List MovRaw) → Option (List Series)
  | [] => some t
  | p :: ps =>
    let r := movPage t p
    if r.2.flag then none else movPagesRun r.1 ps

/-! ### Fund-value / returns ingestion (`Mode1`, lines 518-1184)

First sub-table (`Mode1::Table`): per-fund fund/unit values plus three
yearly return-on-equity percentages; the literal `NA ` (resp. `NA\n`) is
replaced by `0 % EA ` (resp. `0 % EA\n`) before parsing (lines 610-612,
628-630, 646-648).  Second sub-table (`Mode1::Table1`): eight
daily/periodic percentages merged into the `table_cuml` row of the same
fund name. -/

/-- Parse a yearly ROE field: substitute the `NA` literal, split at the
first space, require the exact terminator, parse the number as `f64`. -/
def parseRoeEA (term naLit naSub raw : String) : Option Q :=
  let raw' := if raw = naLit then naSub else raw
  match splitOnce ' ' raw' with
  | some p => if p.2 = term then parseF64 p.1 else none
  | none => none

/-- Parse a periodic ROE field of the second sub-table (terminator `% `,
`%EA ` or `%EA\n`). -/
def parseRoeTerm (term raw : String) : Option Q :=
  match splitOnce ' ' raw with
  | some p => if p.2 = term then parseF64 p.1 else none
  | none => none

/-- The `roe_day_annualized` field additionally strips `$`, `,`, spaces
from the numeric part before parsing (line 871). -/
def parseRoeAnn (raw : String) : Option Q :=
  match splitOnce ' ' raw with
  | some p => if p.2 = "%EA " then parseF64 (stripChars ['$', ',', ' '] p.1) else none
  | none => none

/-- A tokenized first-sub-table payload row (date pre-validated). -/
structure FvRow where
  fund : String
  date : Int
  fund_value_raw : String
  unit_value_raw : String
  unit_change_str : String
  star_str : String
  roe_ntl_raw : String
  roe_ly_raw : String
  roe_ytd_raw : String
deriving DecidableEq, Repr

/-- Parse every field of a first-sub-table row (lines 562-660): money
fields through the `f64` pipeline, the literal `$.00 ` and empty column
checks, and the three yearly ROE percentages. -/
def fvParseRow (r : FvRow) : Option (Int × Int × Q × Q × Q) :=
  match parseMoney r.fund_value_raw with
  | none => none
  | some fv =>
    match parseMoney r.unit_value_raw with
    | none => none
    | some uv =>
      if r.unit_change_str = "$.00 " ∧ r.star_str = "" then
        match parseRoeEA "% EA " "NA " "0 % EA " r.roe_ntl_raw with
        | none => none
        | some ntl =>
          match parseRoeEA "% EA " "NA " "0 % EA " r.roe_ly_raw with
          | none => none
          | some ly =>
            match parseRoeEA "% EA\n" "NA\n" "0 % EA\n" r.roe_ytd_raw with
            | none => none
            | some ytd => some (fv, uv, ntl, ly, ytd)
      else none

/-- The `table_cuml` entry pushed for a first-sub-table row (lines
705-718): the three yearly percentages, every other field `0.`. -/
def mkFundCuml (fund : String) (ntl ly ytd : Q) : FundCuml :=
  ⟨fund, ntl, ly, ytd, q0, q0, q0, q0, q0, q0, q0, q0⟩

/-- First-sub-table row handling (lines 662-718): upsert the fund value by
(fund, date) with change warnings, then push the `table_cuml` entry. -/
def fvStep (st : List Series × List FundCuml × ErrSt) (r : FvRow) :
    List Series × List FundCuml × ErrSt :=
  let t := st.1
  let cuml := st.2.1
  let es := st.2.2
  match fvParseRow r with
  | none => (t, cuml, errMsg "Mode1::Table: field error" es)
  | some (fv, uv, ntl, ly, ytd) =>
    let pushed := cuml ++ [mkFundCuml r.fund ntl ly ytd]
    match findR (fun s => s.fund == r.fund) t with
    | some s =>
      match findR (fun u => u.date == r.date) s.fund_value with
      | some x =>
        let es1 :=
          if x.fund_value ≠ fv then
            warnMsg "Warning nwSSqjjY: Fund changing fund_value" es
          else es
        let es2 :=
          if x.unit_value ≠ uv then
            warnMsg "Warning bxZohaYm: Fund changing unit_value" es1
          else es1
        (updateFirst (fun s => s.fund == r.fund)
          (fun s =>
            { s with
              fund_value :=
                updateFirst (fun u => u.date == r.date)
                  (fun u => { u with fund_value := fv, unit_value := uv })
                  s.fund_value }) t,
          pushed, es2)
      | none =>
        (updateFirst (fun s => s.fund == r.fund)
          (fun s => { s with fund_value := s.fund_value ++ [⟨r.date, fv, uv⟩] }) t,
          pushed, es)
    | none =>
      (t ++ [⟨r.fund, [], [], [⟨r.date, fv, uv⟩]⟩], pushed, es)

/-- A tokenized second-sub-table payload row. -/
structure Fv1Row where
  fund : String
  roe_day_raw : String
  roe_day_annualized_raw : String
  roe_month_raw : String
  roe_trimester_raw : String
  roe_semester_raw : String
  roe_year_raw : String
  roe_2_years_raw : String
  roe_total_raw : String
  roe_ytd_raw : String
deriving DecidableEq, Repr

/-- Parse every field of a second-sub-table row (lines 840-977); the final
year-to-date percentage must parse but its value is discarded. -/
def fv1ParseRow (r : Fv1Row) : Option (Q × Q × Q × Q × Q × Q × Q × Q) :=
  match parseRoeTerm "% " r.roe_day_raw with
  | none => none
  | some d =>
    match parseRoeAnn r.roe_day_annualized_raw with
    | none => none
    | some da =>
      match parseRoeTerm "%EA " r.roe_month_raw with
      | none => none
      | some m =>
        match parseRoeTerm "%EA " r.roe_trimester_raw with
        | none => none
        | some tr =>
          match parseRoeTerm "%EA " r.roe_semester_raw with
          | none => none
          | some se =>
            match parseRoeTerm "%EA " r.roe_year_raw with
            | none => none
            | some y =>
              match parseRoeTerm "%EA " r.roe_2_years_raw with
              | none => none
              | some y2 =>
                match parseRoeTerm "%EA " r.roe_total_raw with
                | none => none
                | some tot =>
                  match parseRoeTerm "%EA\n" r.roe_ytd_raw with
                  | none => none
                  | some _ => some (d, da, m, tr, se, y, y2, tot)

/-- Second-sub-table row handling (lines 981-993): update the matching
`table_cuml` entry in place; a row whose fund has no entry does nothing. -/
def fv1Step (st : List FundCuml × ErrSt) (r : Fv1Row) :
    List FundCuml × ErrSt :=
  let cuml := st.1
  let es := st.2
  match fv1ParseRow r with
  | none => (cuml, errMsg "Mode1::Table1: field error" es)
  | some v =>
    match findR (fun u => u.fund == r.fund) cuml with
    | some _ =>
      (updateFirst (fun u => u.fund == r.fund)
        (fun u =>
          { u with
            roe_day := v.1, roe_day_annualized := v.2.1, roe_month := v.2.2.1,
            roe_trimester := v.2.2.2.1, roe_semester := v.2.2.2.2.1,
            roe_year := v.2.2.2.2.2.1, roe_2_years := v.2.2.2.2.2.2.1,
            roe_total := v.2.2.2.2.2.2.2 }) cuml,
        es)
    | none => (cuml, es)

/-- The whole fund-value pass: first sub-table rows, then second
sub-table rows, one shared error state. -/
def fvPass (t : List Series) (rows : List FvRow) (rows1 : List Fv1Row) :
    List Series × List FundCuml × ErrSt :=
  let a := rows.foldl fvStep (t, [], noErr)
  let b := rows1.foldl fv1Step (a.2.1, a.2.2)
  (a.1, b.1, b.2)

/-! ### Top-level run (persistence control flow)

`main` returns before the snapshot-save step (lines 1189-1210) whenever a
pass set `errors_produced` (lines 301-303, 514-516, 1181-1183).  The
hash-unchanged fast path is modelled as structural equality of the table;
`none` means the run ended before the save step, so the snapshot file is
neither written nor renamed; otherwise the boolean tells whether a new
snapshot is written. -/

def runMain (today : Int) (t0 : List Series) (balRows : List BalRow)
    (pages : List (List MovRaw)) (fvRows : List FvRow)
    (fv1Rows : List Fv1Row) : Option (List Series × List FundCuml × Bool) :=
  let b := balancePass today t0 balRows
  if b.2.flag then none
  else
    match movPagesRun b.1 pages with
    | none => none
    | some t2 =>
      let f := fvPass t2 fvRows fv1Rows
      if f.2.2.flag then none
      else some (f.1, f.2.1, decide (f.1 ≠ t0))

/-! ### Plot-time filtering and sorting (lines 1320-1359)

Only here are the record lists sorted: a copy of the table filtered to
`date ≥ minimum_date` has each list sorted by date (`sort_unstable_by` is
modelled as insertion sort; only date order matters, ties carry no
information the program uses). -/

def insertByDate (key : α → Int) (x : α) : List α → List α
  | [] => [x]
  | y :: ys => if key x ≤ key y then x :: y :: ys else y :: insertByDate key x ys

def insSortByDate (key : α → Int) : List α → List α
  | [] => []
  | x :: xs => insertByDate key x (insSortByDate key xs)

def plotSeries (minDate : Int) (s : Series) : Series :=
  { fund := s.fund
    balance := insSortByDate Balance.date (s.balance.filter fun b => decide (minDate ≤ b.date))
    action := insSortByDate Action.date (s.action.filter fun a => decide (minDate ≤ a.date))
    fund_value := insSortByDate FundValue.date (s.fund_value.filter fun f => decide (minDate ≤ f.date)) }

def plotTable (minDate : Int) (t : List Series) : List Series :=
  t.map (plotSeries minDate)

/-- Date-sortedness of a record list as a boolean chain. -/
def chainLeB (key : α → Int) : List α → Bool
  | x :: y :: rest => decide (key x ≤ key y) && chainLeB key (y :: rest)
  | _ => true

def seriesSortedB (s : Series) : Bool :=
  chainLeB Balance.date s.balance && chainLeB Action.date s.action &&
    chainLeB FundValue.date s.fund_value

def allB (p : α → Bool) : List α → Bool
  | [] => true
  | x :: xs => p x && allB p xs

/-! ### Return/variation engine (lines 1377-1462)

Operates on the plot-filtered, date-sorted table.  All arithmetic inside
the scan is `f64`; the intermediate `adjusted_current_balance` is `i64`. -/

/-- Consume every pending action dated strictly before the balance date
(the `while let Some(action) = action_iter.peek()` loop, lines 1434-1443):
returns the remaining actions, the updated running balance, and the
adjusted current balance. -/
def consumeActs : List Action → Int → Q → Int → List Action × Q × Int
  | [], _, running, adjusted => ([], running, adjusted)
  | a :: rest, bdate, running, adjusted =>
    if bdate ≤ a.date then (a :: rest, running, adjusted)
    else consumeActs rest bdate (f64add running (f64ofInt a.change)) (adjusted - a.change)

/-- The `scan` over balance records (lines 1429-1459): emit, per balance,
whichever of the two percentage variations has the smaller magnitude. -/
def varScan (running : Q) (acts : List Action) : List Balance → List (Int × Q)
  | [] => []
  | b :: bs =>
    let unadjusted := running
    let r := consumeActs acts b.date running b.balance
    let v1 := f64sub (f64div (f64mul (qofInt 100) (f64ofInt r.2.2)) unadjusted) (qofInt 100)
    let v2 := f64sub (f64div (f64mul (qofInt 100) (f64ofInt b.balance)) r.2.1) (qofInt 100)
    (b.date, if qltB (qabs v2) (qabs v1) then v2 else v1) :: varScan r.2.1 r.1 bs

/-- Per-fund variation series for a window starting at `start` (lines
1415-1462); empty when the fund has no balance in the window (such a fund
is filtered out before the map, line 1412-1414). -/
def variationSeries (start : Int) (s : Series) : List (Int × Q) :=
  match skipWhile (fun b => decide (b.date < start)) s.balance with
  | [] => []
  | b0 :: bs =>
    varScan (f64ofInt b0.balance)
      (skipWhile (fun a => decide (a.date < b0.date)) s.action) (b0 :: bs)

def getLastD (l : List α) (d : α) : α :=
  match l with
  | [] => d
  | [x] => x
  | _ :: y :: rest => getLastD (y :: rest) d

def sumChanges : List Action → Int
  | [] => 0
  | a :: rest => a.change + sumChanges rest

/-- The consolidated fold (lines 1383-1402): summed last balances and
summed investments (initial balance plus all actions from the initial
balance date onward) across the funds active in the window. -/
def consolidated (start : Int) (t : List Series) : Int × Int :=
  t.foldl
    (fun acc s =>
      match findR (fun b => decide (start ≤ b.date)) s.balance with
      | some initial =>
        (acc.1 + (getLastD s.balance ⟨0, 0⟩).balance,
          acc.2 + initial.balance +
            sumChanges (skipWhile (fun a => decide (a.date < initial.date)) s.action))
      | none => acc)
    (0, 0)

/-- The consolidated money figures printed in the caption (lines
1403-1408): investment and profit in `f64` dollars. -/
def consolidatedMoney (start : Int) (t : List Series) : Q × Q :=
  (f64div (f64ofInt (consolidated start t).2) (qofInt 100),
    f64sub (f64div (f64ofInt (consolidated start t).1) (qofInt 100))
      (f64div (f64ofInt (consolidated start t).2) (qofInt 100)))

/-- Modelled from the spec: the normalized ("trimmed, lowercased") fund
name that §3 of the spec claims is the identifying key; used only to
compare the spec's normalization against the code's exact-match lookup. -/
def specNormalizeFundName (s : String) : String :=
  ⟨(((s.data.dropWhile (· == ' ')).reverse.dropWhile (· == ' ')).reverse).map Char.toLower⟩

/-- The §8 end-to-end scenario: balance `$1,000.00` on day 0, an `Aporte`
of `$100.00` on day 1, balance `$1,150.00` on day 2, all through the
code's parsing pipelines. -/
def scenarioSeries : Series :=
  ⟨"fondo",
    [⟨0, (parseMoney "$1,000.00").getD 0⟩, ⟨2, (parseMoney "$1,150.00").getD 0⟩],
    [⟨1, (parseChange "Aporte" "$100.00\n").getD 0⟩], []⟩

/-- At most one balance record per date within one series. -/
def noDupDateB : List Balance → Bool
  | [] => true
  | b :: rest => (countB (fun x => x.date == b.date) rest == 0) && noDupDateB rest

/-- At most one balance record per (fund, date) across the table. -/
def balUniqB (t : List Series) : Bool :=
  allB (fun s => noDupDateB s.balance) t

/-- The (series index, action index) a movement row resolves to in a given
table, when its fund and its (date, change) signature are both present. -/
def keyOf (t : List Series) (row : MovRow) : Option (Nat × Nat) :=
  (position (fun s => s.fund == row.fund) t).bind fun fi =>
    (position (fun a => a.date == row.date && a.change == row.change)
      (nthD t fi emptySeries).action).map fun ai => (fi, ai)

/-- The repetition entry that processing a row creates when its signature
is already stored (count 1 at the row's key). -/
def krep (t : List Series) (row : MovRow) : Repetition :=
  match keyOf t row with
  | some k => ⟨k.1, k.2, 1⟩
  | none => ⟨0, 0, 1⟩

/-! ## Generic helper lemmas -/

theorem length_updateFirst (p : α → Bool) (f : α → α) :
    ∀ l : List α, (updateFirst p f l).length = l.length := by
  intro l
  induction l with
  | nil => rfl
  | cons x xs ih =>
    by_cases h : p x = true <;> simp [updateFirst, h, ih]

theorem chainLeB_insertByDate_cons (key : α → Int) (x : α) :
    ∀ (l : List α) (y : α), ¬ key x ≤ key y →
      chainLeB key (y :: l) = true → chainLeB key (y :: insertByDate key x l) = true := by
  intro l
  induction l with
  | nil =>
    intro y hxy _
    simp [insertByDate, chainLeB]
    omega
  | cons z zs ih =>
    intro y hxy h
    simp only [chainLeB, Bool.and_eq_true, decide_eq_true_eq] at h
    by_cases hz : key x ≤ key z
    · simp [insertByDate, hz, chainLeB, h.1, h.2]
      omega
    · simp only [insertByDate, if_neg hz]
      simp only [chainLeB, Bool.and_eq_true, decide_eq_true_eq]
      exact ⟨h.1, by simpa [chainLeB] using ih z hz (by simp [chainLeB, h.2])⟩

theorem chainLeB_insertByDate (key : α → Int) (x : α) :
    ∀ l : List α, chainLeB key l = true → chainLeB key (insertByDate key x l) = true := by
  intro l h
  cases l with
  | nil => simp [insertByDate, chainLeB]
  | cons y ys =>
    by_cases hy : key x ≤ key y
    · simp [insertByDate, hy, chainLeB, h]
    · simp only [insertByDate, if_neg hy]
      exact chainLeB_insertByDate_cons key x ys y hy h

theorem chainLeB_insSortByDate (key : α → Int) :
    ∀ l : List α, chainLeB key (insSortByDate key l) = true := by
  intro l
  induction l with
  | nil => rfl
  | cons x xs ih => exact chainLeB_insertByDate key x _ ih

/-! ## C1 — action-reconciliation multiplicity -/

/-- C1 counterexample: a batch that contains the same (fund, date, change)
row twice, ingested into a store with zero matching records, leaves exactly
ONE stored record — not the two the claim requires. -/
theorem c1_single_ingest_leaves_one :
    countSig (ingestMov [] [⟨"A", 3, 5⟩, ⟨"A", 3, 5⟩]) "A" 3 5 = 1 := by decide

/-- C1 (amended): starting from zero matching records, ingesting a batch
containing the same (fund, date, change) row twice leaves exactly one
record; ingesting the same batch a second time leaves exactly two; a third
ingestion still leaves exactly two. -/
theorem c1_multiplicity_amended (f : String) (d c : Int) :
    countSig (ingestMov [] [⟨f, d, c⟩, ⟨f, d, c⟩]) f d c = 1 ∧
    countSig (ingestMov (ingestMov [] [⟨f, d, c⟩, ⟨f, d, c⟩])
      [⟨f, d, c⟩, ⟨f, d, c⟩]) f d c = 2 ∧
    countSig (ingestMov (ingestMov (ingestMov [] [⟨f, d, c⟩, ⟨f, d, c⟩])
      [⟨f, d, c⟩, ⟨f, d, c⟩]) [⟨f, d, c⟩, ⟨f, d, c⟩]) f d c = 2 := by
  simp [ingestMov, movStep, reconcile, countSig, bumpRep, position, findR,
    nthD, setNth, countB]

/-! ## C2 — action-reconciliation idempotence

The second ingestion of a duplicate-free batch only creates count-1
repetition entries at signatures that are already stored, so the post-page
reconciliation appends nothing.  The lemmas below track how a row's
`keyOf` key (series index, action index) is established by the first
ingestion and preserved by every table mutation. -/

theorem nthD_oob : ∀ (l : List α) (i : Nat) (d : α), l.length ≤ i → nthD l i d = d := by
  intro l
  induction l with
  | nil => intro i d _; cases i <;> rfl
  | cons x xs ih =>
    intro i d h
    cases i with
    | zero => simp at h
    | succ j => exact ih j d (by simpa using h)

theorem nthD_irrel : ∀ (l : List α) (i : Nat) (d1 d2 : α),
    i < l.length → nthD l i d1 = nthD l i d2 := by
  intro l
  induction l with
  | nil => intro i _ _ h; simp at h
  | cons x xs ih =>
    intro i d1 d2 h
    cases i with
    | zero => rfl
    | succ j => exact ih j d1 d2 (by simpa using h)

theorem position_some (p : α → Bool) :
    ∀ (l : List α) (i : Nat), position p l = some i →
      i < l.length ∧ ∀ d, p (nthD l i d) = true := by
  intro l
  induction l with
  | nil => intro i h; exact absurd h (by simp [position])
  | cons x xs ih =>
    intro i h
    by_cases hx : p x = true
    · simp only [position, hx, if_true, Option.some.injEq] at h
      subst h
      exact ⟨by simp, fun d => by simpa [nthD] using hx⟩
    · simp only [Bool.not_eq_true] at hx
      simp only [position, hx, Bool.false_eq_true, if_false] at h
      cases hj : position p xs with
      | none => rw [hj] at h; simp at h
      | some j =>
        rw [hj] at h
        simp at h
        subst h
        obtain ⟨hlt, hp2⟩ := ih j hj
        exact ⟨by simpa using Nat.succ_lt_succ hlt, fun d => by simpa [nthD] using hp2 d⟩

theorem position_setNth (p : α → Bool) (x : α) :
    ∀ (l : List α) (i : Nat), p x = p (nthD l i x) →
      position p (setNth l i x) = position p l := by
  intro l
  induction l with
  | nil => intro i _; rfl
  | cons y ys ih =>
    intro i h
    cases i with
    | zero =>
      simp only [nthD] at h
      simp [setNth, position, h]
    | succ j =>
      simp only [nthD] at h
      simp [setNth, position, ih j h]

theorem position_fund_setNth_action (t : List Series) (fi : Nat)
    (acts : List Action) (g : String) :
    position (fun ss => ss.fund == g)
      (setNth t fi { nthD t fi emptySeries with action := acts }) =
    position (fun ss => ss.fund == g) t := by
  apply position_setNth
  by_cases hfi : fi < t.length
  · rw [nthD_irrel t fi ({ nthD t fi emptySeries with action := acts })
      emptySeries hfi]
  · rw [nthD_oob t fi ({ nthD t fi emptySeries with action := acts })
      (Nat.le_of_not_lt hfi)]

theorem setNth_length : ∀ (l : List α) (i : Nat) (x : α),
    (setNth l i x).length = l.length := by
  intro l
  induction l with
  | nil => intro i x; rfl
  | cons y ys ih =>
    intro i x
    cases i with
    | zero => rfl
    | succ j => simp [setNth, ih j x]

theorem nthD_setNth_self : ∀ (l : List α) (i : Nat) (x d : α),
    i < l.length → nthD (setNth l i x) i d = x := by
  intro l
  induction l with
  | nil => intro i _ _ h; simp at h
  | cons y ys ih =>
    intro i x d h
    cases i with
    | zero => rfl
    | succ j => exact ih j x d (by simpa using h)

theorem nthD_setNth_ne : ∀ (l : List α) (i j : Nat) (x d : α),
    i ≠ j → nthD (setNth l i x) j d = nthD l j d := by
  intro l
  induction l with
  | nil => intro i j _ _ _; rfl
  | cons y ys ih =>
    intro i j x d hne
    cases i with
    | zero =>
      cases j with
      | zero => exact absurd rfl hne
      | succ j' => rfl
    | succ i' =>
      cases j with
      | zero => rfl
      | succ j' => exact ih i' j' x d (fun he => hne (by rw [he]))

theorem setNth_self : ∀ (l : List α) (i : Nat) (d : α),
    setNth l i (nthD l i d) = l := by
  intro l
  induction l with
  | nil => intro i d; rfl
  | cons y ys ih =>
    intro i d
    cases i with
    | zero => rfl
    | succ j => simp [setNth, nthD, ih j d]

theorem position_append_some (p : α → Bool) :
    ∀ (l l' : List α) (i : Nat), position p l = some i →
      position p (l ++ l') = some i := by
  intro l l'
  induction l with
  | nil => intro i h; exact absurd h (by simp [position])
  | cons x xs ih =>
    intro i h
    by_cases hx : p x = true
    · simp only [position, hx, if_true, Option.some.injEq] at h
      simp [position, hx, h]
    · simp only [Bool.not_eq_true] at hx
      simp only [position, hx, Bool.false_eq_true, if_false] at h ⊢
      cases hj : position p xs with
      | none => rw [hj] at h; simp at h
      | some j =>
        rw [hj] at h
        simp at h
        show Option.map (fun x => x + 1) (position p (xs ++ l')) = some i
        rw [ih j hj]
        simp [h]

theorem position_append_new (p : α → Bool) :
    ∀ (l : List α) (x : α), position p l = none → p x = true →
      position p (l ++ [x]) = some l.length := by
  intro l
  induction l with
  | nil => intro x _ hx; simp [position, hx]
  | cons y ys ih =>
    intro x h hx
    by_cases hy : p y = true
    · simp [position, hy] at h
    · simp only [Bool.not_eq_true] at hy
      simp only [position, hy, Bool.false_eq_true, if_false] at h ⊢
      cases hj : position p ys with
      | some j => rw [hj] at h; simp at h
      | none =>
        show Option.map (fun x => x + 1) (position p (ys ++ [x])) = some (y :: ys).length
        rw [ih x hj hx]
        simp

theorem nthD_append_lt : ∀ (l l' : List α) (i : Nat) (d : α),
    i < l.length → nthD (l ++ l') i d = nthD l i d := by
  intro l l'
  induction l with
  | nil => intro i _ h; simp at h
  | cons y ys ih =>
    intro i d h
    cases i with
    | zero => rfl
    | succ j => exact ih j d (by simpa using h)

theorem nthD_append_len : ∀ (l : List α) (x : α) (d : α),
    nthD (l ++ [x]) l.length d = x := by
  intro l
  induction l with
  | nil => intro x d; rfl
  | cons y ys ih => intro x d; exact ih x d

theorem countB_pos (q : α → Bool) :
    ∀ (l : List α) (i : Nat) (d : α), i < l.length → q (nthD l i d) = true →
      1 ≤ countB q l := by
  intro l
  induction l with
  | nil => intro i _ h; simp at h
  | cons x xs ih =>
    intro i d h hq
    cases i with
    | zero =>
      simp only [nthD] at hq
      simp [countB, hq]
    | succ j =>
      have := ih j d (by simpa using h) hq
      simp only [countB]
      omega

theorem keyOf_elim (t : List Series) (row : MovRow) (fi ai : Nat)
    (h : keyOf t row = some (fi, ai)) :
    position (fun s => s.fund == row.fund) t = some fi ∧
    position (fun a => a.date == row.date && a.change == row.change)
      (nthD t fi emptySeries).action = some ai := by
  simp only [keyOf, Option.bind_eq_some, Option.map_eq_some'] at h
  obtain ⟨fj, hf, aj, ha, heq⟩ := h
  obtain ⟨h1, h2⟩ := Prod.mk.injEq .. |>.mp heq
  subst h1
  subst h2
  exact ⟨hf, ha⟩

theorem movStep_of_key (t : List Series) (reps : List Repetition) (row : MovRow)
    (fi ai : Nat) (h : keyOf t row = some (fi, ai)) :
    movStep (t, reps) row = (t, bumpRep reps fi ai) := by
  obtain ⟨hf, ha⟩ := keyOf_elim t row fi ai h
  simp [movStep, hf, ha]

theorem keyOf_isSome_setNth_append (t : List Series) (fi : Nat)
    (extra : List Action) (r' : MovRow) (k : Nat × Nat)
    (h : keyOf t r' = some k) :
    (keyOf (setNth t fi
      { nthD t fi emptySeries with
        action := (nthD t fi emptySeries).action ++ extra }) r').isSome = true := by
  obtain ⟨fj, aj⟩ := k
  obtain ⟨hf, ha⟩ := keyOf_elim t r' fj aj h
  have hlen := (position_some _ t fj hf).1
  have hpos := position_fund_setNth_action t fi
    ((nthD t fi emptySeries).action ++ extra) r'.fund
  by_cases he : fi = fj
  · subst he
    have hnth : nthD (setNth t fi { nthD t fi emptySeries with
        action := (nthD t fi emptySeries).action ++ extra }) fi emptySeries =
        { nthD t fi emptySeries with
          action := (nthD t fi emptySeries).action ++ extra } :=
      nthD_setNth_self t fi _ emptySeries hlen
    have hapos : position (fun a => a.date == r'.date && a.change == r'.change)
        ((nthD t fi emptySeries).action ++ extra) = some aj :=
      position_append_some _ _ extra aj ha
    simp [keyOf, hpos, hf, hnth, hapos]
  · have hnth : nthD (setNth t fi { nthD t fi emptySeries with
        action := (nthD t fi emptySeries).action ++ extra }) fj emptySeries =
        nthD t fj emptySeries :=
      nthD_setNth_ne t fi fj _ emptySeries he
    simp [keyOf, hpos, hf, hnth, ha]

theorem keyOf_isSome_append_series (t : List Series) (snew : Series)
    (r' : MovRow) (k : Nat × Nat) (h : keyOf t r' = some k) :
    (keyOf (t ++ [snew]) r').isSome = true := by
  obtain ⟨fj, aj⟩ := k
  obtain ⟨hf, ha⟩ := keyOf_elim t r' fj aj h
  have hlen := (position_some _ t fj hf).1
  have hpos := position_append_some (fun s => s.fund == r'.fund) t [snew] fj hf
  have hnth := nthD_append_lt t [snew] fj emptySeries hlen
  simp [keyOf, hpos, hnth, ha]

theorem movStep_establishes_key (t : List Series) (reps : List Repetition)
    (row : MovRow) : (keyOf (movStep (t, reps) row).1 row).isSome = true := by
  cases hf : position (fun s => s.fund == row.fund) t with
  | some fi =>
    have hlen := (position_some _ t fi hf).1
    cases ha : position (fun a => a.date == row.date && a.change == row.change)
        (nthD t fi emptySeries).action with
    | some ai =>
      simp [movStep, hf, ha, keyOf]
    | none =>
      have hpos := position_fund_setNth_action t fi
        ((nthD t fi emptySeries).action ++ [⟨row.date, row.change⟩]) row.fund
      have hnth : nthD (setNth t fi { nthD t fi emptySeries with
          action := (nthD t fi emptySeries).action ++ [⟨row.date, row.change⟩] }) fi
          emptySeries =
          { nthD t fi emptySeries with
            action := (nthD t fi emptySeries).action ++ [⟨row.date, row.change⟩] } :=
        nthD_setNth_self t fi _ emptySeries hlen
      have hapos : position (fun a => a.date == row.date && a.change == row.change)
          ((nthD t fi emptySeries).action ++ [⟨row.date, row.change⟩]) =
          some (nthD t fi emptySeries).action.length :=
        position_append_new _ _ ⟨row.date, row.change⟩ ha (by simp)
      simp [movStep, hf, ha, keyOf, hpos, hnth, hapos]
  | none =>
    have hpos : position (fun ss => ss.fund == row.fund)
        (t ++ [⟨row.fund, [], [⟨row.date, row.change⟩], []⟩]) = some t.length :=
      position_append_new _ t ⟨row.fund, [], [⟨row.date, row.change⟩], []⟩ hf (by simp)
    have hnth := nthD_append_len t (⟨row.fund, [], [⟨row.date, row.change⟩], []⟩ : Series)
      emptySeries
    simp [movStep, hf, keyOf, hpos, hnth, position]

theorem movStep_preserves_key (t : List Series) (reps : List Repetition)
    (row r' : MovRow) (h : (keyOf t r').isSome = true) :
    (keyOf (movStep (t, reps) row).1 r').isSome = true := by
  rcases Option.isSome_iff_exists.mp h with ⟨k, hk⟩
  cases hf : position (fun s => s.fund == row.fund) t with
  | some fi =>
    cases ha : position (fun a => a.date == row.date && a.change == row.change)
        (nthD t fi emptySeries).action with
    | some ai =>
      simp only [movStep, hf, ha]
      rw [hk]
      rfl
    | none =>
      simp only [movStep, hf, ha]
      exact keyOf_isSome_setNth_append t fi [⟨row.date, row.change⟩] r' k hk
  | none =>
    simp only [movStep, hf]
    exact keyOf_isSome_append_series t ⟨row.fund, [], [⟨row.date, row.change⟩], []⟩ r' k hk

theorem movFold_key (batch : List MovRow) :
    ∀ (t : List Series) (reps : List Repetition),
      (∀ r', (keyOf t r').isSome = true →
        (keyOf (List.foldl movStep (t, reps) batch).1 r').isSome = true) ∧
      (∀ row, row ∈ batch →
        (keyOf (List.foldl movStep (t, reps) batch).1 row).isSome = true) := by
  induction batch with
  | nil =>
    intro t reps
    exact ⟨fun r' h => h, fun row h => absurd h (List.not_mem_nil row)⟩
  | cons r0 rest ih =>
    intro t reps
    constructor
    · intro r' h
      rw [List.foldl_cons]
      have h1 := movStep_preserves_key t reps r0 r' h
      exact (ih (movStep (t, reps) r0).1 (movStep (t, reps) r0).2).1 r' h1
    · intro row hrow
      rw [List.foldl_cons]
      rcases List.mem_cons.mp hrow with he | hm
      · subst he
        have h1 := movStep_establishes_key t reps row
        exact (ih (movStep (t, reps) row).1 (movStep (t, reps) row).2).1 row h1
      · exact (ih (movStep (t, reps) r0).1 (movStep (t, reps) r0).2).2 row hm

theorem reconcile_preserves_key :
    ∀ (reps : List Repetition) (t : List Series) (r' : MovRow),
      (keyOf t r').isSome = true → (keyOf (reconcile t reps) r').isSome = true := by
  intro reps
  induction reps with
  | nil => intro t r' h; exact h
  | cons e rest ih =>
    intro t r' h
    rcases Option.isSome_iff_exists.mp h with ⟨k, hk⟩
    show (keyOf (reconcile _ rest) r').isSome = true
    exact ih _ r' (keyOf_isSome_setNth_append t e.fund_index _ r' k hk)

theorem ingest_establishes_keys (t : List Series) (batch : List MovRow) :
    ∀ row, row ∈ batch → (keyOf (ingestMov t batch) row).isSome = true := by
  intro row hrow
  unfold ingestMov
  exact reconcile_preserves_key _ _ row ((movFold_key batch t []).2 row hrow)

theorem bumpRep_fresh :
    ∀ (reps : List Repetition) (fi ai : Nat),
      (∀ e, e ∈ reps → ¬(e.fund_index = fi ∧ e.action_index = ai)) →
      bumpRep reps fi ai = reps ++ [⟨fi, ai, 1⟩] := by
  intro reps
  induction reps with
  | nil => intro fi ai _; rfl
  | cons e rest ih =>
    intro fi ai h
    have he := h e (List.mem_cons_self e rest)
    have hb : (e.fund_index == fi && e.action_index == ai) = false := by
      rw [Bool.eq_false_iff]
      intro hcontra
      simp only [Bool.and_eq_true, beq_iff_eq] at hcontra
      exact he hcontra
    simp [bumpRep, hb, ih fi ai (fun e' hm => h e' (List.mem_cons_of_mem e hm))]

theorem movFold_pure (batch : List MovRow) :
    ∀ (t : List Series) (reps : List Repetition),
      (∀ row, row ∈ batch → (keyOf t row).isSome = true) →
      (∀ row, row ∈ batch → ∀ e, e ∈ reps →
        ¬(e.fund_index = (krep t row).fund_index ∧
          e.action_index = (krep t row).action_index)) →
      List.Pairwise (fun r1 r2 => keyOf t r1 ≠ keyOf t r2) batch →
      List.foldl movStep (t, reps) batch = (t, reps ++ batch.map (krep t)) := by
  induction batch with
  | nil => intro t reps _ _ _; simp
  | cons r0 rest ih =>
    intro t reps hk hfresh hpair
    rcases Option.isSome_iff_exists.mp (hk r0 (List.mem_cons_self r0 rest)) with ⟨k, hk0⟩
    obtain ⟨fi, ai⟩ := k
    have hstep : movStep (t, reps) r0 = (t, bumpRep reps fi ai) :=
      movStep_of_key t reps r0 fi ai hk0
    have hkrep : krep t r0 = ⟨fi, ai, 1⟩ := by simp [krep, hk0]
    have hbump : bumpRep reps fi ai = reps ++ [⟨fi, ai, 1⟩] := by
      apply bumpRep_fresh
      intro e he
      have hfr := hfresh r0 (List.mem_cons_self r0 rest) e he
      rw [hkrep] at hfr
      exact hfr
    rw [List.pairwise_cons] at hpair
    have hfresh' : ∀ row, row ∈ rest → ∀ e, e ∈ reps ++ [(⟨fi, ai, 1⟩ : Repetition)] →
        ¬(e.fund_index = (krep t row).fund_index ∧
          e.action_index = (krep t row).action_index) := by
      intro row hm e he
      rcases List.mem_append.mp he with h1 | h2
      · exact hfresh row (List.mem_cons_of_mem r0 hm) e h1
      · have heq : e = ⟨fi, ai, 1⟩ := by simpa using h2
        subst heq
        rcases Option.isSome_iff_exists.mp (hk row (List.mem_cons_of_mem r0 hm)) with
          ⟨⟨fi', ai'⟩, hk'⟩
        have hkrep' : krep t row = ⟨fi', ai', 1⟩ := by simp [krep, hk']
        rw [hkrep']
        intro hcontra
        apply hpair.1 row hm
        rw [hk0, hk']
        simp only [Option.some.injEq, Prod.mk.injEq]
        exact ⟨hcontra.1, hcontra.2⟩
    have hih := ih t (reps ++ [(⟨fi, ai, 1⟩ : Repetition)])
      (fun row hm => hk row (List.mem_cons_of_mem r0 hm)) hfresh' hpair.2
    rw [List.foldl_cons, hstep, hbump, hih]
    simp [hkrep]

theorem series_mk_eta (s : Series) :
    Series.mk s.fund s.balance s.action s.fund_value = s := rfl

theorem reconcile_id_of_counts :
    ∀ (reps : List Repetition) (t : List Series),
      (∀ e, e ∈ reps → e.repetition ≤
        ((countB (fun bb =>
          (nthD (nthD t e.fund_index emptySeries).action e.action_index defaultAction).date == bb.date &&
          (nthD (nthD t e.fund_index emptySeries).action e.action_index defaultAction).change == bb.change)
          (nthD t e.fund_index emptySeries).action : Nat) : Int)) →
      reconcile t reps = t := by
  intro reps
  induction reps with
  | nil => intro t _; rfl
  | cons e rest ih =>
    intro t h
    have he := h e (List.mem_cons_self e rest)
    have hn : (e.repetition -
        ((countB (fun bb =>
          (nthD (nthD t e.fund_index emptySeries).action e.action_index defaultAction).date == bb.date &&
          (nthD (nthD t e.fund_index emptySeries).action e.action_index defaultAction).change == bb.change)
          (nthD t e.fund_index emptySeries).action : Nat) : Int)).toNat = 0 :=
      Int.toNat_eq_zero.mpr (by omega)
    show reconcile _ rest = t
    rw [show (setNth t e.fund_index
        { nthD t e.fund_index emptySeries with
          action := (nthD t e.fund_index emptySeries).action ++
            List.replicate
              (e.repetition -
                ((countB (fun b =>
                  (nthD (nthD t e.fund_index emptySeries).action e.action_index defaultAction).date == b.date &&
                  (nthD (nthD t e.fund_index emptySeries).action e.action_index defaultAction).change == b.change)
                  (nthD t e.fund_index emptySeries).action : Nat) : Int)).toNat
              (nthD (nthD t e.fund_index emptySeries).action e.action_index defaultAction) }) = t by
      rw [hn, List.replicate_zero, List.append_nil, series_mk_eta]
      exact setNth_self t e.fund_index emptySeries]
    exact ih t (fun e' hm => h e' (List.mem_cons_of_mem e hm))

theorem ingest_id_of_keys (t : List Series) (batch : List MovRow)
    (hk : ∀ row, row ∈ batch → (keyOf t row).isSome = true)
    (hpair : List.Pairwise (fun r1 r2 => keyOf t r1 ≠ keyOf t r2) batch) :
    ingestMov t batch = t := by
  unfold ingestMov
  rw [movFold_pure batch t [] hk
    (fun row _ e he => absurd he (List.not_mem_nil e)) hpair]
  simp only [List.nil_append]
  apply reconcile_id_of_counts
  intro e he
  rcases List.mem_map.mp he with ⟨row, hrow, hkrep⟩
  rcases Option.isSome_iff_exists.mp (hk row hrow) with ⟨⟨fi, ai⟩, hk0⟩
  have heq : e = ⟨fi, ai, 1⟩ := by rw [← hkrep]; simp [krep, hk0]
  subst heq
  obtain ⟨hf, ha⟩ := keyOf_elim t row fi ai hk0
  have hlen := (position_some _ _ ai ha).1
  have hcnt := countB_pos
    (fun bb => (nthD (nthD t fi emptySeries).action ai defaultAction).date == bb.date &&
      (nthD (nthD t fi emptySeries).action ai defaultAction).change == bb.change)
    (nthD t fi emptySeries).action ai defaultAction hlen (by simp)
  show (1 : Int) ≤ ((countB (fun bb =>
    (nthD (nthD t fi emptySeries).action ai defaultAction).date == bb.date &&
    (nthD (nthD t fi emptySeries).action ai defaultAction).change == bb.change)
    (nthD t fi emptySeries).action : Nat) : Int)
  omega

theorem keyOf_inj (t : List Series) (r1 r2 : MovRow) (k : Nat × Nat)
    (h1 : keyOf t r1 = some k) (h2 : keyOf t r2 = some k) : r1 = r2 := by
  obtain ⟨fi, ai⟩ := k
  obtain ⟨hf1, ha1⟩ := keyOf_elim t r1 fi ai h1
  obtain ⟨hf2, ha2⟩ := keyOf_elim t r2 fi ai h2
  have hp1 := (position_some _ t fi hf1).2 emptySeries
  have hp2 := (position_some _ t fi hf2).2 emptySeries
  have hq1 := (position_some _ _ ai ha1).2 defaultAction
  have hq2 := (position_some _ _ ai ha2).2 defaultAction
  simp only [beq_iff_eq] at hp1 hp2
  simp only [Bool.and_eq_true, beq_iff_eq] at hq1 hq2
  obtain ⟨f1, d1, c1⟩ := r1
  obtain ⟨f2, d2, c2⟩ := r2
  simp only [MovRow.mk.injEq]
  simp only at hp1 hp2 hq1 hq2
  refine ⟨hp1 ▸ hp2, ?_, ?_⟩
  · rw [← hq1.1, ← hq2.1]
  · rw [← hq1.2, ← hq2.2]

theorem pairwise_key_ne (t : List Series) :
    ∀ (batch : List MovRow),
      (∀ row, row ∈ batch → (keyOf t row).isSome = true) → batch.Nodup →
      List.Pairwise (fun r1 r2 => keyOf t r1 ≠ keyOf t r2) batch := by
  intro batch
  induction batch with
  | nil => intro _ _; exact List.Pairwise.nil
  | cons r0 rest ih =>
    intro hk hnd
    rw [List.nodup_cons] at hnd
    refine List.Pairwise.cons ?_
      (ih (fun row hm => hk row (List.mem_cons_of_mem r0 hm)) hnd.2)
    intro r' hm' heq
    rcases Option.isSome_iff_exists.mp (hk r0 (List.mem_cons_self r0 rest)) with ⟨k, hk0⟩
    have hk' : keyOf t r' = some k := heq ▸ hk0
    have := keyOf_inj t r0 r' k hk0 hk'
    exact hnd.1 (this ▸ hm')

/-- C2 counterexample: ingesting a batch that repeats one row twice, twice
in sequence, yields a different store than ingesting it once (one stored
copy after the first pass, two after the second). -/
theorem c2_double_ingest_differs :
    ingestMov (ingestMov [] [⟨"g", 5, 700⟩, ⟨"g", 5, 700⟩]) [⟨"g", 5, 700⟩, ⟨"g", 5, 700⟩] ≠
      ingestMov [] [⟨"g", 5, 700⟩, ⟨"g", 5, 700⟩] := by
  decide

/-- C2 (amended): for every movements batch in which no (fund, date,
change) row occurs twice, ingesting the batch twice in sequence (two
passes through the per-page reconciliation, each with its own repetition
side-table) yields exactly the same stored table as ingesting it once; a
batch with an in-batch duplicate of a fresh signature gains one more copy
on the second pass. -/
theorem c2_idempotent_of_distinct (t : List Series) (batch : List MovRow)
    (h : batch.Nodup) :
    ingestMov (ingestMov t batch) batch = ingestMov t batch := by
  have hk := ingest_establishes_keys t batch
  exact ingest_id_of_keys (ingestMov t batch) batch hk
    (pairwise_key_ne (ingestMov t batch) batch hk h)

theorem c2_witness :
    ([⟨"g", 5, 700⟩, ⟨"g", 6, 700⟩] : List MovRow).Nodup ∧
    ingestMov (ingestMov [] [⟨"g", 5, 700⟩, ⟨"g", 6, 700⟩]) [⟨"g", 5, 700⟩, ⟨"g", 6, 700⟩] =
      ingestMov [] [⟨"g", 5, 700⟩, ⟨"g", 6, 700⟩] :=
  ⟨by decide, c2_idempotent_of_distinct [] [⟨"g", 5, 700⟩, ⟨"g", 6, 700⟩] (by decide)⟩

/-! ## C3 — currency parsing -/

/-- C3 counterexample: the code accepts the claim's "malformed" input
`"$,211,231.74"` (no error is produced), and the parse is not exact either:
`"$.29"` yields 28 cents. -/
theorem c3_not_strict_not_exact :
    parseMoney "$,211,231.74" = some 21123174 ∧ parseMoney "$.29" = some 28 := by
  decide

/-- C3 (amended): a currency field is parsed by deleting `$`, `,` and
spaces and parsing the residue as `f64`, multiplying by `100.0` and
truncating.  The claim's three positive examples do hold, but grouping is
not validated (its "malformed" inputs are accepted), a single decimal digit
is accepted, the result can be off by one cent, and only inputs whose
residue fails float parsing are rejected. -/
theorem c3_float_pipeline_amended :
    parseMoney "$.00" = some 0 ∧
    parseMoney "$1,231.74" = some 123174 ∧
    parseMoney "$211,231.74" = some 21123174 ∧
    parseMoney "$,211,231.74" = some 21123174 ∧
    parseMoney "$1,2,1,231.74" = some 12123174 ∧
    parseMoney "$1,211,231.7" = some 121123170 ∧
    parseMoney "$.29" = some 28 ∧
    parseMoney "" = none ∧
    parseMoney "$1,2X1.74" = none := by
  decide

/-! ## C4 — `NA` percentages -/

/-- C4 counterexample: a first-sub-table row whose next-to-last-year
percentage is the literal `NA ` is stored with the NUMBER zero (the code
substitutes the literal `0 % EA `), and the second-sub-table percentages
of the pushed record default to zero as well — there is no NaN marker. -/
theorem c4_na_stored_as_zero :
    (nthD (fvStep ([], [], noErr)
        ⟨"f", 5, "$1,000.00", "$10.00", "$.00 ", "", "NA ", "1.5 % EA ", "2 % EA\n"⟩).2.1
      0 (mkFundCuml "x" q0 q0 q0)).roe_next_to_last_year = ⟨0, 1⟩ ∧
    (nthD (fvStep ([], [], noErr)
        ⟨"f", 5, "$1,000.00", "$10.00", "$.00 ", "", "NA ", "1.5 % EA ", "2 % EA\n"⟩).2.1
      0 (mkFundCuml "x" q0 q0 q0)).roe_day = q0 := by
  decide

/-- C4 (amended): the literal `NA` token is rewritten to `0 % EA` and
parses to the number 0 (indistinguishable from a true 0 % figure), and for
every successfully parsed first-sub-table row the pushed aggregate record
carries literal-zero defaults (not NaN) in all eight periodic fields. -/
theorem c4_na_and_defaults_amended (st : List Series × List FundCuml × ErrSt)
    (r : FvRow) (v : Int × Int × Q × Q × Q) (h : fvParseRow r = some v) :
    (fvStep st r).2.1 = st.2.1 ++ [mkFundCuml r.fund v.2.2.1 v.2.2.2.1 v.2.2.2.2] ∧
    parseRoeEA "% EA " "NA " "0 % EA " "NA " = some ⟨0, 1⟩ ∧
    parseRoeEA "% EA\n" "NA\n" "0 % EA\n" "NA\n" = some ⟨0, 1⟩ ∧
    (mkFundCuml r.fund v.2.2.1 v.2.2.2.1 v.2.2.2.2).roe_day = q0 ∧
    (mkFundCuml r.fund v.2.2.1 v.2.2.2.1 v.2.2.2.2).roe_day_annualized = q0 ∧
    (mkFundCuml r.fund v.2.2.1 v.2.2.2.1 v.2.2.2.2).roe_month = q0 ∧
    (mkFundCuml r.fund v.2.2.1 v.2.2.2.1 v.2.2.2.2).roe_trimester = q0 ∧
    (mkFundCuml r.fund v.2.2.1 v.2.2.2.1 v.2.2.2.2).roe_semester = q0 ∧
    (mkFundCuml r.fund v.2.2.1 v.2.2.2.1 v.2.2.2.2).roe_year = q0 ∧
    (mkFundCuml r.fund v.2.2.1 v.2.2.2.1 v.2.2.2.2).roe_2_years = q0 ∧
    (mkFundCuml r.fund v.2.2.1 v.2.2.2.1 v.2.2.2.2).roe_total = q0 := by
  refine ⟨?_, by decide, by decide, rfl, rfl, rfl, rfl, rfl, rfl, rfl, rfl⟩
  unfold fvStep
  rw [h]
  cases hf : findR (fun s => s.fund == r.fund) st.1 with
  | none => simp [hf]
  | some s =>
    cases hu : findR (fun u => u.date == r.date) s.fund_value with
    | none => simp [hf, hu]
    | some x => simp [hf, hu]

theorem c4_witness :
    fvParseRow ⟨"f", 5, "$1,000.00", "$10.00", "$.00 ", "", "NA ", "1.5 % EA ", "2 % EA\n"⟩ =
      some (100000, 1000, ⟨0, 1⟩, ⟨6755399441055744, 4503599627370496⟩,
        ⟨4503599627370496, 2251799813685248⟩) ∧
    (fvStep ([], [], noErr)
        ⟨"f", 5, "$1,000.00", "$10.00", "$.00 ", "", "NA ", "1.5 % EA ", "2 % EA\n"⟩).2.1 =
      [] ++ [mkFundCuml "f" ⟨0, 1⟩ ⟨6755399441055744, 4503599627370496⟩
        ⟨4503599627370496, 2251799813685248⟩] :=
  ⟨by decide,
    (c4_na_and_defaults_amended ([], [], noErr)
      ⟨"f", 5, "$1,000.00", "$10.00", "$.00 ", "", "NA ", "1.5 % EA ", "2 % EA\n"⟩
      (100000, 1000, ⟨0, 1⟩, ⟨6755399441055744, 4503599627370496⟩,
        ⟨4503599627370496, 2251799813685248⟩) (by decide)).1⟩

/-! ## C5 — end-to-end return computation -/

/-- C5 counterexample: in the §8 scenario the value the code emits for day
2 is not 50 (neither fifty dollars nor fifty percent): the emitted series
carries percentages, here ≈ 4.545 %. -/
theorem c5_day2_not_fifty :
    ¬ qeq (nthD (variationSeries 0 scenarioSeries) 1 (0, q0)).2 ⟨50, 1⟩ := by
  decide

/-- C5 (amended): for every window start at or before day 0, the
consolidated investment is $1,100.00 and the consolidated profit $50.00
(both as exact cents and through the `f64` caption arithmetic), and the
emitted day-2 variation is the percentage 100·115000/110000 − 100 ≈ 4.545
(between 4.5 and 4.6), not $50. -/
theorem c5_end_to_end_amended (start : Int) (h : start ≤ 0) :
    consolidated start [scenarioSeries] = (115000, 110000) ∧
    qeq (consolidatedMoney start [scenarioSeries]).1 ⟨1100, 1⟩ ∧
    qeq (consolidatedMoney start [scenarioSeries]).2 ⟨50, 1⟩ ∧
    variationSeries start scenarioSeries = variationSeries 0 scenarioSeries ∧
    (variationSeries 0 scenarioSeries).length = 2 ∧
    qeq (nthD (variationSeries 0 scenarioSeries) 0 (0, q0)).2 q0 ∧
    qlt ⟨45, 10⟩ (nthD (variationSeries 0 scenarioSeries) 1 (0, q0)).2 ∧
    qlt (nthD (variationSeries 0 scenarioSeries) 1 (0, q0)).2 ⟨46, 10⟩ := by
  have hs : scenarioSeries =
      ⟨"fondo", [⟨0, 100000⟩, ⟨2, 115000⟩], [⟨1, 10000⟩], []⟩ := by decide
  have h0 : decide (start ≤ (0 : Int)) = true := decide_eq_true h
  have h1 : decide ((0 : Int) < start) = false := by
    simp only [decide_eq_false_iff_not]
    omega
  have hcons : consolidated start [scenarioSeries] = (115000, 110000) := by
    rw [hs]
    simp [consolidated, findR, h0, skipWhile, sumChanges, getLastD]
  have hvar : variationSeries start scenarioSeries = variationSeries 0 scenarioSeries := by
    rw [hs]
    simp [variationSeries, skipWhile, h1]
  refine ⟨hcons, ?_, ?_, hvar, by decide, by decide, by decide, by decide⟩
  · show qeq (consolidatedMoney start [scenarioSeries]).1 ⟨1100, 1⟩
    simp only [consolidatedMoney, hcons]
    decide
  · show qeq (consolidatedMoney start [scenarioSeries]).2 ⟨50, 1⟩
    simp only [consolidatedMoney, hcons]
    decide

theorem c5_witness :
    (0 : Int) ≤ 0 ∧ consolidated 0 [scenarioSeries] = (115000, 110000) :=
  ⟨le_refl 0, (c5_end_to_end_amended 0 (le_refl 0)).1⟩

/-! ## C6 — fund-name normalization -/

/-- C6 counterexample: two balance rows whose fund names coincide after
trimming and lowercasing (the spec's normalization) create TWO distinct
series, because the code compares raw names for exact equality. -/
theorem c6_case_variants_two_series :
    specNormalizeFundName "Fondo A" = specNormalizeFundName "fondo a " ∧
    (balancePass 7 [] [⟨"Fondo A", "$10.00"⟩, ⟨"fondo a ", "$10.00"⟩]).1.length = 2 := by
  decide

/-- C6 (amended): fund lookup compares the raw tab-separated fund field
for exact string equality: a row whose raw fund name already occurs updates
that series in place (no series is added), and a row whose raw fund name
does not occur appends a new series keyed by the raw, un-normalized name —
so casing or whitespace variants of one fund get distinct series. -/
theorem c6_exact_match_amended (today : Int) (t : List Series) (es : ErrSt)
    (row : BalRow) :
    (∀ s, findR (fun s => s.fund == row.fund) t = some s →
      (balStep today (t, es) row).1.length = t.length) ∧
    (∀ b, findR (fun s => s.fund == row.fund) t = none →
      parseMoney row.balance_raw = some b →
      (balStep today (t, es) row).1 = t ++ [⟨row.fund, [⟨today, b⟩], [], []⟩]) := by
  constructor
  · intro s hf
    cases hp : parseMoney row.balance_raw with
    | none => simp [balStep, hp]
    | some b =>
      cases hb : findR (fun b => b.date == today) s.balance with
      | none => simp [balStep, hp, hf, hb, length_updateFirst]
      | some x => simp [balStep, hp, hf, hb, length_updateFirst]
  · intro b hf hp
    simp [balStep, hp, hf]

theorem c6_witness :
    ((balStep 7 ([⟨"Fondo A", [], [], []⟩], noErr) ⟨"Fondo A", "$10.00"⟩).1.length = 1) ∧
    ((balStep 7 ([⟨"Fondo A", [], [], []⟩], noErr) ⟨"fondo a ", "$10.00"⟩).1 =
      [⟨"Fondo A", [], [], []⟩] ++ [⟨"fondo a ", [⟨7, 1000⟩], [], []⟩]) :=
  ⟨(c6_exact_match_amended 7 [⟨"Fondo A", [], [], []⟩] noErr ⟨"Fondo A", "$10.00"⟩).1
      ⟨"Fondo A", [], [], []⟩ (by decide),
    (c6_exact_match_amended 7 [⟨"Fondo A", [], [], []⟩] noErr ⟨"fondo a ", "$10.00"⟩).2
      1000 (by decide) (by decide)⟩

/-! ## C7 — sortedness of stored lists -/

/-- C7 counterexample: after ingesting a movements page whose rows arrive
in descending date order, the stored action list of the fund is NOT sorted
by date. -/
theorem c7_store_not_sorted :
    seriesSortedB (nthD (ingestMov [] [⟨"f", 2, 5⟩, ⟨"f", 1, 5⟩]) 0 emptySeries) = false := by
  decide

/-- C7 (amended): the stored lists keep append order; it is the filtered
copy built for plotting (lines 1320-1359) whose balance, action and
fund-value lists are all sorted by date, for every table and window. -/
theorem c7_plot_copy_sorted (minDate : Int) (t : List Series) :
    allB seriesSortedB (plotTable minDate t) = true := by
  induction t with
  | nil => rfl
  | cons s rest ih =>
    simp only [plotTable, List.map_cons, allB, Bool.and_eq_true]
    refine ⟨?_, by simpa [plotTable] using ih⟩
    simp only [seriesSortedB, plotSeries, Bool.and_eq_true]
    exact ⟨⟨chainLeB_insSortByDate _ _, chainLeB_insSortByDate _ _⟩,
      chainLeB_insSortByDate _ _⟩

/-! ## C8 — balance upsert -/

theorem findR_some_pred (p : α → Bool) :
    ∀ l : List α, ∀ x, findR p l = some x → p x = true := by
  intro l
  induction l with
  | nil => intro x h; exact absurd h (by simp [findR])
  | cons y ys ih =>
    intro x h
    by_cases hy : p y = true
    · simp [findR, hy] at h
      exact h ▸ hy
    · simp only [Bool.not_eq_true] at hy
      simp [findR, hy] at h
      exact ih x h

theorem findR_none_countB (p : α → Bool) :
    ∀ l : List α, findR p l = none → countB p l = 0 := by
  intro l
  induction l with
  | nil => intro _; rfl
  | cons y ys ih =>
    intro h
    by_cases hy : p y = true
    · simp [findR, hy] at h
    · simp only [Bool.not_eq_true] at hy
      simp [findR, hy] at h
      simp [countB, hy, ih h]

theorem countB_append (p : α → Bool) :
    ∀ l l' : List α, countB p (l ++ l') = countB p l + countB p l' := by
  intro l l'
  induction l with
  | nil => simp [countB]
  | cons x xs ih => simp [countB, ih]; omega

theorem countB_updateFirst (p q : α → Bool) (f : α → α)
    (hq : ∀ x, q (f x) = q x) :
    ∀ l : List α, countB q (updateFirst p f l) = countB q l := by
  intro l
  induction l with
  | nil => rfl
  | cons x xs ih =>
    by_cases hx : p x = true
    · simp [updateFirst, hx, countB, hq]
    · simp only [Bool.not_eq_true] at hx
      simp [updateFirst, hx, countB, ih]

theorem noDupDateB_updateFirst (p : Balance → Bool) (f : Balance → Balance)
    (hdate : ∀ b, (f b).date = b.date) :
    ∀ l, noDupDateB (updateFirst p f l) = noDupDateB l := by
  intro l
  induction l with
  | nil => rfl
  | cons b rest ih =>
    by_cases hb : p b = true
    · simp [updateFirst, hb, noDupDateB, hdate]
    · simp only [Bool.not_eq_true] at hb
      have hcnt := countB_updateFirst p (fun x => x.date == b.date) f
        (fun x => by simp [hdate x]) rest
      simp [updateFirst, hb, noDupDateB, ih, hcnt]

theorem noDupDateB_append_today (today v : Int) :
    ∀ l, noDupDateB l = true → countB (fun b => b.date == today) l = 0 →
      noDupDateB (l ++ [⟨today, v⟩]) = true := by
  intro l
  induction l with
  | nil => intro _ _; simp [noDupDateB, countB]
  | cons b rest ih =>
    intro h hc
    simp only [noDupDateB, Bool.and_eq_true, beq_iff_eq] at h
    simp only [countB] at hc
    have hbd : (b.date == today) = false := by
      by_cases hbt : b.date = today
      · simp [hbt] at hc
      · simpa using hbt
    have hcrest : countB (fun b => b.date == today) rest = 0 := by
      simp only [hbd, Bool.false_eq_true, if_false] at hc
      omega
    simp only [List.cons_append, noDupDateB, Bool.and_eq_true, beq_iff_eq]
    refine ⟨?_, ih h.2 hcrest⟩
    have h1 := countB_append (fun x => x.date == b.date) rest [(⟨today, v⟩ : Balance)]
    have h2 : countB (fun x => x.date == b.date) [(⟨today, v⟩ : Balance)] = 0 := by
      have hne : (today == b.date) = false := by
        simp only [beq_eq_false_iff_ne]
        intro he
        rw [he] at hbd
        simp at hbd
      simp [countB, hne]
    show countB (fun x => x.date == b.date) (rest ++ [(⟨today, v⟩ : Balance)]) = 0
    omega

theorem allB_findR (q p : α → Bool) :
    ∀ l : List α, ∀ s, allB q l = true → findR p l = some s → q s = true := by
  intro l
  induction l with
  | nil => intro s _ h; exact absurd h (by simp [findR])
  | cons x xs ih =>
    intro s hall hf
    simp only [allB, Bool.and_eq_true] at hall
    by_cases hx : p x = true
    · simp [findR, hx] at hf
      exact hf ▸ hall.1
    · simp only [Bool.not_eq_true] at hx
      simp [findR, hx] at hf
      exact ih s hall.2 hf

theorem allB_updateFirst_found (q p : α → Bool) (f : α → α) :
    ∀ l : List α, ∀ s, allB q l = true → findR p l = some s → q (f s) = true →
      allB q (updateFirst p f l) = true := by
  intro l
  induction l with
  | nil => intro s _ h _; exact absurd h (by simp [findR])
  | cons x xs ih =>
    intro s hall hf hfs
    simp only [allB, Bool.and_eq_true] at hall
    by_cases hx : p x = true
    · simp only [findR, hx, if_true, Option.some.injEq] at hf
      simp [updateFirst, hx, allB, hf ▸ hfs, hall.2]
    · simp only [Bool.not_eq_true] at hx
      simp only [findR, hx, Bool.false_eq_true, if_false] at hf
      simp [updateFirst, hx, allB, hall.1, ih s hall.2 hf hfs]

theorem allB_append_single (q : α → Bool) :
    ∀ l : List α, ∀ x, allB q l = true → q x = true → allB q (l ++ [x]) = true := by
  intro l
  induction l with
  | nil => intro x _ hx; simp [allB, hx]
  | cons y ys ih =>
    intro x hall hx
    simp only [allB, Bool.and_eq_true] at hall
    simp only [List.cons_append, allB, Bool.and_eq_true]
    exact ⟨hall.1, ih x hall.2 hx⟩

theorem findR_updateFirst_self (p : α → Bool) (f : α → α)
    (hp : ∀ x, p (f x) = p x) :
    ∀ l : List α, ∀ s, findR p l = some s →
      findR p (updateFirst p f l) = some (f s) := by
  intro l
  induction l with
  | nil => intro s h; exact absurd h (by simp [findR])
  | cons x xs ih =>
    intro s hf
    by_cases hx : p x = true
    · simp only [findR, hx, if_true, Option.some.injEq] at hf
      subst hf
      simp [updateFirst, hx, findR, hp]
    · simp only [Bool.not_eq_true] at hx
      simp only [findR, hx, Bool.false_eq_true, if_false] at hf
      simp [updateFirst, hx, findR, ih s hf]

/-- One balance row preserves per-(fund, date) uniqueness. -/
theorem balStep_uniq (today : Int) (st : List Series × ErrSt) (row : BalRow)
    (h : balUniqB st.1 = true) : balUniqB (balStep today st row).1 = true := by
  unfold balUniqB at *
  cases hp : parseMoney row.balance_raw with
  | none => simpa [balStep, hp] using h
  | some b =>
    cases hs : findR (fun s => s.fund == row.fund) st.1 with
    | none =>
      simp only [balStep, hp, hs]
      exact allB_append_single _ _ _ h (by simp [noDupDateB, countB])
    | some s =>
      have hqs : noDupDateB s.balance = true := allB_findR _ _ _ s h hs
      cases hb : findR (fun bb => bb.date == today) s.balance with
      | none =>
        simp only [balStep, hp, hs, hb]
        refine allB_updateFirst_found _ _ _ _ s h hs ?_
        exact noDupDateB_append_today today b s.balance hqs
          (findR_none_countB _ s.balance hb)
      | some x =>
        simp only [balStep, hp, hs, hb]
        refine allB_updateFirst_found _ _ _ _ s h hs ?_
        show noDupDateB (updateFirst (fun bb => bb.date == today)
          (fun bb => { bb with balance := b }) s.balance) = true
        rw [noDupDateB_updateFirst (fun bb => bb.date == today)
          (fun bb => { bb with balance := b }) (fun bb => rfl)]
        exact hqs

/-- C8: balance ingestion is a last-write-wins upsert with a non-fatal
warning: per-(fund, date) uniqueness is preserved by the whole pass; a row
whose (fund, today) already has a stored record with a different value
overwrites it with the new value, appends a warning message, leaves the
fatal flag unset, and the pass keeps folding over the remaining rows. -/
theorem c8_balance_upsert (today : Int) (t : List Series) (rows : List BalRow)
    (es : ErrSt) (row : BalRow) (s : Series) (x : Balance) (b : Int)
    (huniq : balUniqB t = true)
    (hs : findR (fun ss => ss.fund == row.fund) t = some s)
    (hx : findR (fun bb => bb.date == today) s.balance = some x)
    (hp : parseMoney row.balance_raw = some b)
    (hneq : x.balance ≠ b)
    (hflag : es.flag = false) :
    balUniqB (balancePass today t rows).1 = true ∧
    (balStep today (t, es) row).2.flag = false ∧
    (balStep today (t, es) row).2.msgs = es.msgs ++ ["Warning: Fund changing balance"] ∧
    (∃ s', findR (fun ss => ss.fund == row.fund) (balStep today (t, es) row).1 = some s' ∧
      findR (fun bb => bb.date == today) s'.balance = some ⟨today, b⟩) ∧
    (∀ r0 rest, balancePass today t (r0 :: rest) =
      rest.foldl (balStep today) (balStep today (t, noErr) r0)) := by
  have hpass : balUniqB (balancePass today t rows).1 = true := by
    unfold balancePass
    have : ∀ (rs : List BalRow) (st : List Series × ErrSt), balUniqB st.1 = true →
        balUniqB (rs.foldl (balStep today) st).1 = true := by
      intro rs
      induction rs with
      | nil => intro st h; exact h
      | cons r0 rest ih =>
        intro st h
        exact ih _ (balStep_uniq today st r0 h)
    exact this rows (t, noErr) huniq
  have hxdate : x.date = today := by
    have := findR_some_pred _ s.balance x hx
    simpa using this
  refine ⟨hpass, ?_, ?_, ?_, fun r0 rest => rfl⟩

  · simp [balStep, hp, hs, hx, hneq, warnMsg, hflag]
  · simp [balStep, hp, hs, hx, hneq, warnMsg]
  · refine ⟨{ s with balance := updateFirst (fun bb => bb.date == today) (fun bb => { bb with balance := b }) s.balance }, ?_, ?_⟩
    · simp only [balStep, hp, hs, hx]
      exact findR_updateFirst_self (fun ss => ss.fund == row.fund)
        (fun ss => { ss with balance := updateFirst (fun bb => bb.date == today) (fun bb => { bb with balance := b }) ss.balance })
        (fun _ => rfl) t s hs
    · show findR (fun bb => bb.date == today)
        (updateFirst (fun bb => bb.date == today)
          (fun bb => { bb with balance := b }) s.balance) = some _
      have hfr := findR_updateFirst_self (fun bb : Balance => bb.date == today)
        (fun bb => { bb with balance := b }) (fun _ => rfl) s.balance x hx
      rw [hfr]
      simp [hxdate]

theorem c8_witness :
    balUniqB (balancePass 7 [⟨"f", [⟨7, 1000⟩], [], []⟩] [⟨"f", "$12.00"⟩]).1 = true ∧
    (balStep 7 ([⟨"f", [⟨7, 1000⟩], [], []⟩], noErr) ⟨"f", "$12.00"⟩).2.flag = false ∧
    (balStep 7 ([⟨"f", [⟨7, 1000⟩], [], []⟩], noErr) ⟨"f", "$12.00"⟩).2.msgs =
      [] ++ ["Warning: Fund changing balance"] := by
  have h := c8_balance_upsert 7 [⟨"f", [⟨7, 1000⟩], [], []⟩] [⟨"f", "$12.00"⟩]
    noErr ⟨"f", "$12.00"⟩ ⟨"f", [⟨7, 1000⟩], [], []⟩ ⟨7, 1000⟩ 1200
    (by decide) (by decide) (by decide) (by decide) (by decide) (by decide)
  exact ⟨h.1, h.2.1, h.2.2.1⟩

/-! ## C9 — no persistence on a fatal path -/

/-- C9: if any ingestion pass records a fatal error, the run ends before
the snapshot-save step (`runMain` returns `none`): the snapshot file is
neither written nor renamed. -/
theorem c9_no_save_on_fatal (today : Int) (t0 : List Series)
    (balRows : List BalRow) (pages : List (List MovRaw)) (fvRows : List FvRow)
    (fv1Rows : List Fv1Row)
    (h : (balancePass today t0 balRows).2.flag = true ∨
      movPagesRun (balancePass today t0 balRows).1 pages = none ∨
      ∀ t2, movPagesRun (balancePass today t0 balRows).1 pages = some t2 →
        (fvPass t2 fvRows fv1Rows).2.2.flag = true) :
    runMain today t0 balRows pages fvRows fv1Rows = none := by
  unfold runMain
  rcases h with h | h | h
  · simp [h]
  · by_cases hb : (balancePass today t0 balRows).2.flag = true
    · simp [hb]
    · simp only [Bool.not_eq_true] at hb
      simp [hb, h]
  · by_cases hb : (balancePass today t0 balRows).2.flag = true
    · simp [hb]
    · simp only [Bool.not_eq_true] at hb
      simp only [hb, Bool.false_eq_true, if_false]
      cases hm : movPagesRun (balancePass today t0 balRows).1 pages with
      | none => rfl
      | some t2 => simp [h t2 hm]

theorem c9_witness :
    (balancePass 7 [] [⟨"f", "xx"⟩]).2.flag = true ∧
    runMain 7 [] [⟨"f", "xx"⟩] [] [] [] = none :=
  ⟨by decide, c9_no_save_on_fatal 7 [] [⟨"f", "xx"⟩] [] [] [] (Or.inl (by decide))⟩

/-! ## C10 — unmatched second-sub-table rows are dropped silently -/

/-- C10: a successfully parsed second-sub-table row whose fund name
matches no aggregate record is discarded without any trace: the aggregate
table, the message list and the fatal flag are all unchanged. -/
theorem c10_unmatched_row_dropped (cuml : List FundCuml) (es : ErrSt)
    (r : Fv1Row) (hp : (fv1ParseRow r).isSome)
    (hf : findR (fun u => u.fund == r.fund) cuml = none) :
    fv1Step (cuml, es) r = (cuml, es) := by
  rcases Option.isSome_iff_exists.mp hp with ⟨v, hv⟩
  simp [fv1Step, hv, hf]

theorem c10_witness :
    (fv1ParseRow ⟨"zz", "1.5 % ", "2 %EA ", "2 %EA ", "2 %EA ", "2 %EA ",
      "2 %EA ", "2 %EA ", "2 %EA ", "3 %EA\n"⟩).isSome = true ∧
    fv1Step ([], noErr) ⟨"zz", "1.5 % ", "2 %EA ", "2 %EA ", "2 %EA ", "2 %EA ",
      "2 %EA ", "2 %EA ", "2 %EA ", "3 %EA\n"⟩ = ([], noErr) :=
  ⟨by decide,
    c10_unmatched_row_dropped [] noErr
      ⟨"zz", "1.5 % ", "2 %EA ", "2 %EA ", "2 %EA ", "2 %EA ", "2 %EA ",
        "2 %EA ", "2 %EA ", "3 %EA\n"⟩ (by decide) (by decide)⟩

end Fondos
